import Mathlib

/-!
Shallow embedding of the cincinnati graph-builder core: the release
metadata model, the cache actor, the registry scanner actor, the
registry fetch pipeline, the metadata extractor, the graph builder,
the HTTP graph endpoint and the plugin-configuration loader, together
with proofs of their specified properties.

External effects (registry I/O, gzip+tar decoding, JSON parsing,
serialization, hashing) are abstracted as explicit function
parameters; everything else is translated directly from the source.
-/

/-- Association-list lookup with first-binding-wins semantics, used to
model the various keyed maps (HashMap, BTreeMap, toml tables). -/
def alookup {κ α : Type} [DecidableEq κ] : List (κ × α) → κ → Option α
  | [], _ => none
  | (k, v) :: rest, key => if k = key then some v else alookup rest key

/-- Error-propagating fold: the shallow embedding of try_for_each and
of driving a fallible stream to completion, where the first error
aborts the remainder. -/
def foldE {γ α : Type} (f : γ → α → Except Unit γ) : γ → List α → Except Unit γ
  | g, [] => .ok g
  | g, a :: rest =>
    match f g a with
    | .error e => .error e
    | .ok g2 => foldE f g2 rest

/-- release.rs MetadataKind: a tagged enum with the single variant V0. -/
inductive MetadataKind
  | v0
deriving DecidableEq, Repr

/-- release.rs Metadata. Versions are modelled by their canonical
semver rendering as a string: the graph-building code only ever
compares versions through to_string(). -/
structure Metadata where
  kind : MetadataKind
  version : String
  previous : List String
  next : List String
  metadata : List (String × String)
deriving DecidableEq, Repr

namespace cincinnati

/-- Modelled from the spec: cincinnati::Release (the cincinnati crate
root is not among the scanned sources). A release is either Concrete,
with version, payload pullspec and free-form metadata, or an Abstract
placeholder carrying only a version. -/
inductive Release
  | concrete (version payload : String) (metadata : List (String × String))
  | abstract (version : String)
deriving DecidableEq, Repr

/-- The version carried by a release node, Concrete or Abstract. -/
def Release.version : Release → String
  | .concrete v _ _ => v
  | .abstract v => v

/-- Modelled from the spec: a cincinnati Graph is a directed graph
whose nodes carry releases; nodes are identified by their index in the
node list and edges are ordered index pairs. -/
structure Graph where
  nodes : List Release
  edges : List (Nat × Nat)
deriving DecidableEq, Repr

/-- Graph::default(): the empty graph. -/
def Graph.default : Graph := ⟨[], []⟩

/-- Index of the first node carrying the given version. -/
def findVersionIdx : List Release → String → Option Nat
  | [], _ => none
  | r :: rest, v =>
    if r.version = v then some 0 else (findVersionIdx rest v).map (· + 1)

/-- Modelled from the spec: version is a primary key, so
find_by_version returns the at most one node whose release carries
version v (the insertion discipline keeps the first match unique). -/
def Graph.find_by_version (g : Graph) (v : String) : Option Nat :=
  findVersionIdx g.nodes v

/-- Modelled from the spec: add_release appends a node when the version
is new; adding a Concrete release whose version matches an existing
Abstract node promotes that node in place, carrying over its edges;
any other duplicate version fails (DuplicateVersion, and an Abstract
release never replaces an existing node). -/
def Graph.add_release (g : Graph) (r : Release) : Except Unit (Nat × Graph) :=
  match g.find_by_version r.version with
  | none => .ok (g.nodes.length, ⟨g.nodes ++ [r], g.edges⟩)
  | some i =>
    match g.nodes.get? i, r with
    | some (.abstract _), .concrete v p m =>
      .ok (i, ⟨g.nodes.set i (.concrete v p m), g.edges⟩)
    | _, _ => .error ()

/-- Modelled from the spec: add_transition adds the directed edge
(source → target); re-adding an existing edge is a no-op, not an
error; self-edges are disallowed; multi-edges are disallowed. -/
def Graph.add_transition (g : Graph) (source target : Nat) : Except Unit Graph :=
  if source = target then .error ()
  else if (source, target) ∈ g.edges then .ok g
  else .ok ⟨g.nodes, g.edges ++ [(source, target)]⟩

end cincinnati

namespace registry

/-- registry.rs Release: the pullspec the release was found at, plus
its extracted metadata. -/
structure Release where
  source : String
  metadata : Metadata
deriving DecidableEq, Repr

/-- registry.rs impl Into<cincinnati::Release> for Release: a registry
release becomes a Concrete cincinnati release. -/
def Release.intoCincinnati (r : Release) : cincinnati.Release :=
  .concrete r.metadata.version r.source r.metadata.metadata

/-- Decidable equality of fallible results, needed to evaluate the
archive model on concrete inputs. -/
instance exceptDecEq {ε α : Type} [DecidableEq ε] [DecidableEq α] :
    DecidableEq (Except ε α) := fun a b =>
  match a, b with
  | .error e1, .error e2 => decidable_of_iff (e1 = e2) (by simp)
  | .ok x, .ok y => decidable_of_iff (x = y) (by simp)
  | .error _, .ok _ => isFalse (by simp)
  | .ok _, .error _ => isFalse (by simp)

/-- One tar archive entry as seen by the extractor: reading the header
path and reading the contents may each fail independently. -/
structure TarEntry where
  path : Except Unit String
  contents : Except Unit String
deriving DecidableEq, Repr

/-- A layer blob, shallowly embedded as the outcome of gzip+tar
decoding its bytes: opening the archive may fail, or it yields the
entry sequence, each entry of which may itself fail to read. The
extractor is a pure function of this value. -/
structure Blob where
  entriesResult : Except Unit (List (Except Unit TarEntry))
deriving DecidableEq, Repr

/-- The fixed path of the embedded metadata file, from
find_first_release in registry.rs. -/
def metadata_filename : String := "release-manifests/release-metadata"

/-- registry.rs assemble_metadata: open the archive, skip entries that
fail to read, find the first readable entry whose header path equals
the requested filename (a header that fails to read never matches),
then read that entry's contents and JSON-parse them; a missing entry,
an unreadable content or a parse failure is an error. JSON parsing of
Metadata is abstracted by the parseMeta parameter. -/
def assemble_metadata (parseMeta : String → Option Metadata) (blob : Blob)
    (filename : String) : Except Unit Metadata :=
  match blob.entriesResult with
  | .error _ => .error ()
  | .ok items =>
    match (items.filterMap (fun it =>
        match it with
        | .ok file => some file
        | .error _ => none)).find? (fun file =>
          match file.path with
          | .ok p => p == filename
          | .error _ => false) with
    | some file =>
      match file.contents with
      | .error _ => .error ()
      | .ok contents =>
        match parseMeta contents with
        | some m => .ok m
        | none => .error ()
    | none => .error ()

/-- registry.rs find_first_release: walk the layer digests in order;
for each, fetch the blob (an error here aborts), try the extractor,
and stop at the first successful extraction, building the release with
the host/repo:tag pullspec; if no layer yields metadata the tag maps
to None. blobOf abstracts get_blob for the authenticated client. -/
def find_first_release (blobOf : String → Except Unit Blob)
    (parseMeta : String → Option Metadata)
    (registry_host repo repo_tag : String) :
    List String → Except Unit (String × Option Release)
  | [] => .ok (repo_tag, none)
  | layer_digest :: rest =>
    match blobOf layer_digest with
    | .error e => .error e
    | .ok blob =>
      match assemble_metadata parseMeta blob metadata_filename with
      | .ok m =>
        .ok (repo_tag, some ⟨registry_host ++ "/" ++ repo ++ ":" ++ repo_tag, m⟩)
      | .error _ =>
        find_first_release blobOf parseMeta registry_host repo repo_tag rest

/-- registry.rs cache_release: hash the layer-digest sequence (the
stable 64-bit hasher is abstracted by H), return the cached result on
a hit, otherwise run find_first_release and insert its result into the
cache keyed by the hash. -/
def cache_release (blobOf : String → Except Unit Blob)
    (parseMeta : String → Option Metadata) (H : List String → Nat)
    (registry_host repo tag : String) (layer_digests : List String)
    (cache : List (Nat × Option Release)) :
    Except Unit (Option Release × List (Nat × Option Release)) :=
  match alookup cache (H layer_digests) with
  | some release => .ok (release, cache)
  | none =>
    match find_first_release blobOf parseMeta registry_host repo tag layer_digests with
    | .error e => .error e
    | .ok (_, release) => .ok (release, (H layer_digests, release) :: cache)

/-- The manifest phase of registry.rs fetch_releases: each tag from the
tag stream goes through get_manifest_and_layers and the results are
collected; the first failing tag aborts the whole collection.
manifestLayers abstracts get_manifest plus get_layer_digests for one
tag. -/
def collect_tagged_layers (manifestLayers : String → Except Unit (List String)) :
    List String → Except Unit (List (String × List String))
  | [] => .ok []
  | tag :: rest =>
    match manifestLayers tag with
    | .error e => .error e
    | .ok digests =>
      match collect_tagged_layers manifestLayers rest with
      | .error e => .error e
      | .ok tail => .ok ((tag, digests) :: tail)

/-- The release phase of registry.rs fetch_releases: run cache_release
for each collected (tag, layer digests) pair in order, threading the
cache, keeping the Some releases in tag order; the first error aborts
the whole call. -/
def fetch_loop (blobOf : String → Except Unit Blob)
    (parseMeta : String → Option Metadata) (H : List String → Nat)
    (registry_host repo : String) :
    List (String × List String) → List (Nat × Option Release) →
    Except Unit (List Release × List (Nat × Option Release))
  | [], cache => .ok ([], cache)
  | (tag, digests) :: rest, cache =>
    match cache_release blobOf parseMeta H registry_host repo tag digests cache with
    | .error e => .error e
    | .ok (release, cache2) =>
      match fetch_loop blobOf parseMeta H registry_host repo rest cache2 with
      | .error e => .error e
      | .ok (releases, cache3) =>
        .ok ((match release with
              | some r => r :: releases
              | none => releases), cache3)

/-- registry.rs fetch_releases: first collect (tag, layer digests) for
every tag of the repository, then run the cache-aware per-tag release
lookup over the collected list; any error in either phase aborts the
whole call with an error. -/
def fetch_releases (manifestLayers : String → Except Unit (List String))
    (blobOf : String → Except Unit Blob)
    (parseMeta : String → Option Metadata) (H : List String → Nat)
    (registry_host repo : String) (tags : List String)
    (cache : List (Nat × Option Release)) :
    Except Unit (List Release × List (Nat × Option Release)) :=
  match collect_tagged_layers manifestLayers tags with
  | .error e => .error e
  | .ok tagged_layers =>
    fetch_loop blobOf parseMeta H registry_host repo tagged_layers cache

end registry

namespace cache

/-- cache.rs Cached: the reply to a Query message. -/
inductive Cached
  | vacantEntry
  | knownTag (release : Option registry.Release)
deriving DecidableEq, Repr

/-- cache.rs CacheManager state: the set of tags known to carry no
release, and the tag-keyed release map. Both collections are modelled
as lists: membership models the HashSet, first-binding lookup after
prepending models BTreeMap insertion (last write wins). -/
structure CacheManager where
  no_release : List String
  tagged_release : List (String × registry.Release)
deriving DecidableEq, Repr

/-- CacheManager::default(): both collections empty. -/
def CacheManager.default : CacheManager := ⟨[], []⟩

/-- cache.rs Handler<Query>: a tag in the negative set is a known tag
with no release; otherwise a tagged release is a known tag with that
release; otherwise the entry is vacant. -/
def handleQuery (s : CacheManager) (tag : String) : Cached :=
  if tag ∈ s.no_release then .knownTag none
  else
    match alookup s.tagged_release tag with
    | some release => .knownTag (some release)
    | none => .vacantEntry

/-- cache.rs Handler<Insert>: a None release goes into the negative
set, a Some release into the tagged-release map. -/
def handleInsert (s : CacheManager) (tag : String)
    (release : Option registry.Release) : CacheManager :=
  match release with
  | none => { s with no_release := tag :: s.no_release }
  | some rel => { s with tagged_release := (tag, rel) :: s.tagged_release }

/-- Deliver a list of Insert messages to the cache actor inbox in
order, starting from the default (empty) state; Query messages do not
change the state, so only the inserts matter for the reached state. -/
def runInserts (msgs : List (String × Option registry.Release)) : CacheManager :=
  msgs.foldl (fun s m => handleInsert s m.1 m.2) CacheManager.default

end cache

namespace scanner

/-- scanner.rs MAX_REPO_SCANS: maximum number of parallel repo scans. -/
def MAX_REPO_SCANS : Nat := 5

/-- scanner.rs Handler<ScanRepo> for RegistryScanner: when the in-flight
list is at or above the cap, Vec::pop removes the last element — the
scan pushed most recently — and drops it (cancelling it); then the new
scan is started and pushed at the end. Scans are modelled by their
identifiers; index 0 holds the scan started earliest. -/
def handleScanRepo (scans : List Nat) (newScan : Nat) : List Nat :=
  let trimmed := if MAX_REPO_SCANS ≤ scans.length then scans.dropLast else scans
  trimmed ++ [newScan]

end scanner

namespace graph

/-- Modelled from the spec: the Cincinnati content-type constant
exported by the cincinnati crate root (not among the scanned sources). -/
def CONTENT_TYPE : String := "application/vnd.redhat.cincinnati.v1+json"

/-- The observable part of an actix HttpResponse built by the index
handler: status code, content-type header, body. -/
structure HttpResponse where
  status : Nat
  contentType : Option String
  body : String
deriving DecidableEq, Repr

/-- graph.rs index: if the request carries an Accept header equal,
byte for byte, to the Cincinnati content type, answer 200 with that
content type and the current slot contents as body; every other
request — mismatching or absent Accept — falls to the catch-all arm
and gets 406 Not Acceptable with an empty body. -/
def index (accept : Option String) (slotJson : String) : HttpResponse :=
  match accept with
  | some value =>
    if value = CONTENT_TYPE then ⟨200, some CONTENT_TYPE, slotJson⟩
    else ⟨406, none, ""⟩
  | none => ⟨406, none, ""⟩

/-- graph.rs State::new: the serving slot starts as the empty string. -/
def stateNew : String := ""

/-- The resolve-or-insert step shared by the previous and next loops of
graph.rs create_graph: reuse the node carrying version v when one
exists, otherwise insert an Abstract node for v. -/
def resolveOrAbstract (g : cincinnati.Graph) (v : String) :
    Except Unit (Nat × cincinnati.Graph) :=
  match g.find_by_version v with
  | some id => .ok (id, g)
  | none => g.add_release (.abstract v)

/-- One iteration of the previous-loop in graph.rs create_graph:
resolve (or insert Abstract) the node for v, then add the edge
(v → current). -/
def addPreviousEdge (current : Nat) (g : cincinnati.Graph) (v : String) :
    Except Unit cincinnati.Graph :=
  match resolveOrAbstract g v with
  | .error e => .error e
  | .ok (previous, g2) => g2.add_transition previous current

/-- One iteration of the next-loop in graph.rs create_graph: resolve
(or insert Abstract) the node for v, then add the edge (current → v). -/
def addNextEdge (current : Nat) (g : cincinnati.Graph) (v : String) :
    Except Unit cincinnati.Graph :=
  match resolveOrAbstract g v with
  | .error e => .error e
  | .ok (nextIdx, g2) => g2.add_transition current nextIdx

/-- The per-release body of the try_for_each in graph.rs create_graph:
add the release as a Concrete node, then walk its previous list adding
edges into it, then its next list adding edges out of it. -/
def addOneRelease (g : cincinnati.Graph) (r : registry.Release) :
    Except Unit cincinnati.Graph :=
  match g.add_release r.intoCincinnati with
  | .error e => .error e
  | .ok (current, g1) =>
    match foldE (addPreviousEdge current) g1 r.metadata.previous with
    | .error e => .error e
    | .ok g2 => foldE (addNextEdge current) g2 r.metadata.next

/-- graph.rs create_graph: an empty release list yields the empty graph
(with only a warning logged); otherwise every release is folded into
the graph in input order, the first failure aborting the build. -/
def create_graph (releases : List registry.Release) : Except Unit cincinnati.Graph :=
  if releases.isEmpty then .ok cincinnati.Graph.default
  else foldE addOneRelease cincinnati.Graph.default releases

end graph

namespace registry_scanner

/-- registry_scanner.rs RegistryScanner::update_state: build the graph
from the scanned releases and serialize it (serde_json::to_string is
abstracted by ser); only when both steps succeed is the slot
overwritten with the fresh JSON; on either failure the error is only
logged and the slot keeps its previous contents. -/
def update_state (ser : cincinnati.Graph → Except Unit String) (slot : String)
    (releases : List registry.Release) : String :=
  match graph.create_graph releases with
  | .ok g =>
    match ser g with
    | .ok json => json
    | .error _ => slot
  | .error _ => slot

end registry_scanner

namespace catalog

/-- A toml value as far as deserialize_config inspects it: a string or
anything else (as_str distinguishes exactly these two cases). -/
inductive TomlValue
  | str (s : String)
  | other
deriving DecidableEq, Repr

/-- catalog.rs CONFIG_PLUGIN_NAME_KEY. -/
def CONFIG_PLUGIN_NAME_KEY : String := "name"

/-- The error cases of catalog.rs deserialize_config, plus a generic
failure for the plugin-specific deserializers. -/
inductive ConfigError
  | missingPluginName
  | invalidPluginNameValue
  | unknownPlugin (offending : String)
  | deserializeFailed
deriving DecidableEq, Repr

/-- The typed deserializers of the six catalogued plugins, abstracted:
each takes the whole configuration record and produces a settings
value or fails. The settings type is abstract (Box<dyn
PluginSettings>). Plugin names are modelled from the spec catalog and
the catalog.rs test (which fixes the quay plugin's name to
"quay-metadata"); the plugin modules are not among the scanned
sources. -/
structure PluginCatalog (σ : Type) where
  assignWariness : List (String × TomlValue) → Except ConfigError σ
  channelFilter : List (String × TomlValue) → Except ConfigError σ
  edgeAddRemove : List (String × TomlValue) → Except ConfigError σ
  nodeRemove : List (String × TomlValue) → Except ConfigError σ
  quayMetadataFetch : List (String × TomlValue) → Except ConfigError σ
  cincinnatiGraphFetch : List (String × TomlValue) → Except ConfigError σ

/-- The catalogued plugin names, in the dispatch order of the match in
catalog.rs deserialize_config. -/
def pluginNames : List String :=
  ["assign-wariness", "channel-filter", "edge-add-remove",
   "node-remove", "quay-metadata", "cincinnati-graph-fetch"]

/-- catalog.rs deserialize_config: read the name key (absent key →
missing-plugin-name, non-string value → invalid-plugin-name), then
dispatch on the name string to the matching plugin's typed
deserializer; a name matching no catalog entry fails with
unknown-plugin naming the offending value. -/
def deserialize_config {σ : Type} (cat : PluginCatalog σ)
    (cfg : List (String × TomlValue)) : Except ConfigError σ :=
  match alookup cfg CONFIG_PLUGIN_NAME_KEY with
  | none => .error .missingPluginName
  | some .other => .error .invalidPluginNameValue
  | some (.str pluginName) =>
    if pluginName = "assign-wariness" then cat.assignWariness cfg
    else if pluginName = "channel-filter" then cat.channelFilter cfg
    else if pluginName = "edge-add-remove" then cat.edgeAddRemove cfg
    else if pluginName = "node-remove" then cat.nodeRemove cfg
    else if pluginName = "quay-metadata" then cat.quayMetadataFetch cfg
    else if pluginName = "cincinnati-graph-fetch" then cat.cincinnatiGraphFetch cfg
    else .error (.unknownPlugin pluginName)

end catalog

/-- C1: at most MAX_REPO_SCANS scans are in flight — that part holds —
but the scan cancelled when a new ScanRepo arrives at the cap is NOT
the oldest one: Vec::pop removes the most recently pushed scan. With
in-flight scans [1, 2, 3, 4, 5] (1 started earliest, 5 latest) and a
new scan 6, the handler cancels 5 and keeps 1, while the claim — and
the binding name `oldest` in the source — require 1 to be cancelled. -/
theorem c1_scanRepo_evicts_newest_eval :
    scanner.handleScanRepo [1, 2, 3, 4, 5] 6 = [1, 2, 3, 4, 6] ∧
    1 ∈ scanner.handleScanRepo [1, 2, 3, 4, 5] 6 ∧
    5 ∉ scanner.handleScanRepo [1, 2, 3, 4, 5] 6 ∧
    (scanner.handleScanRepo [1, 2, 3, 4, 5] 6).length = scanner.MAX_REPO_SCANS := by
  decide

/-- C4: a GET /v1/graph request whose Accept header equals the
Cincinnati content type gets 200 with that content type and the
current slot contents as body — the initial empty slot included, which
is served as an empty body — and a request whose Accept header carries
any other value gets 406 Not Acceptable with an empty body. -/
theorem c4_index_content_type_gate :
    (∀ slotJson : String,
      graph.index (some graph.CONTENT_TYPE) slotJson =
        ⟨200, some graph.CONTENT_TYPE, slotJson⟩) ∧
    graph.index (some graph.CONTENT_TYPE) graph.stateNew =
      ⟨200, some graph.CONTENT_TYPE, ""⟩ ∧
    (∀ value slotJson : String, value ≠ graph.CONTENT_TYPE →
      graph.index (some value) slotJson = ⟨406, none, ""⟩) := by
  refine ⟨fun s => ?_, ?_, fun v s hv => ?_⟩
  · simp [graph.index]
  · simp [graph.index, graph.stateNew]
  · simp [graph.index, hv]

/-- Witness for C4 at a concrete mismatching Accept value. -/
theorem c4_index_content_type_gate_witness :
    "text/html" ≠ graph.CONTENT_TYPE ∧
    graph.index (some "text/html") "{}" = ⟨406, none, ""⟩ :=
  ⟨by decide, c4_index_content_type_gate.2.2 "text/html" "{}" (by decide)⟩

/-- C10: a GET /v1/graph request with no Accept header at all falls to
the same catch-all match arm as a mismatching header: it gets 406 Not
Acceptable with an empty body, and its response coincides with the
response to any mismatching Accept value. -/
theorem c10_index_absent_accept :
    (∀ slotJson : String, graph.index none slotJson = ⟨406, none, ""⟩) ∧
    (∀ value slotJson : String, value ≠ graph.CONTENT_TYPE →
      graph.index none slotJson = graph.index (some value) slotJson) := by
  refine ⟨fun s => ?_, fun v s hv => ?_⟩
  · simp [graph.index]
  · simp [graph.index, hv]

/-- Witness for C10 at a concrete mismatching Accept value. -/
theorem c10_index_absent_accept_witness :
    "application/json" ≠ graph.CONTENT_TYPE ∧
    graph.index none "{}" = graph.index (some "application/json") "{}" :=
  ⟨by decide, c10_index_absent_accept.2 "application/json" "{}" (by decide)⟩

/-- C5: update_state leaves the published snapshot string unchanged
whenever graph construction fails (DuplicateVersion) or serialization
of the freshly built graph fails; readers keep observing the previous
cycle's serialized graph. -/
theorem c5_update_state_frame :
    ∀ (ser : cincinnati.Graph → Except Unit String) (slot : String)
      (releases : List registry.Release),
      (graph.create_graph releases = .error () →
        registry_scanner.update_state ser slot releases = slot) ∧
      (∀ g, graph.create_graph releases = .ok g → ser g = .error () →
        registry_scanner.update_state ser slot releases = slot) := by
  intro ser slot releases
  constructor
  · intro h
    simp [registry_scanner.update_state, h]
  · intro g hg hs
    simp [registry_scanner.update_state, hg, hs]

/-- A release used to exhibit a DuplicateVersion build failure. -/
def dupRel : registry.Release :=
  ⟨"quay.io/repo:0.0.1", ⟨.v0, "0.0.1", [], [], []⟩⟩

/-- Witness for C5: a duplicated version aborts graph construction and
the slot survives; a failing serializer also leaves the slot alone. -/
theorem c5_update_state_frame_witness :
    graph.create_graph [dupRel, dupRel] = .error () ∧
    registry_scanner.update_state (fun _ => .ok "{}") "previous" [dupRel, dupRel] =
      "previous" ∧
    graph.create_graph [dupRel] = .ok ⟨[.concrete "0.0.1" "quay.io/repo:0.0.1" []], []⟩ ∧
    registry_scanner.update_state (fun _ => .error ()) "previous" [dupRel] =
      "previous" :=
  ⟨by decide,
   (c5_update_state_frame (fun _ => .ok "{}") "previous" [dupRel, dupRel]).1 (by decide),
   by decide,
   (c5_update_state_frame (fun _ => .error ()) "previous" [dupRel]).2
     ⟨[.concrete "0.0.1" "quay.io/repo:0.0.1" []], []⟩ (by decide) rfl⟩

/-- C9: deserialize_config fails with the missing-plugin-name error
when the record has no name key; fails with the unknown-plugin error
naming the offending value when the name string matches no catalog
entry; and for each catalogued name dispatches to exactly that
plugin's typed deserializer, handing it the whole record. -/
theorem c9_deserialize_config_dispatch :
    ∀ {σ : Type} (cat : catalog.PluginCatalog σ)
      (cfg : List (String × catalog.TomlValue)),
      (alookup cfg catalog.CONFIG_PLUGIN_NAME_KEY = none →
        catalog.deserialize_config cat cfg = .error .missingPluginName) ∧
      (∀ s, alookup cfg catalog.CONFIG_PLUGIN_NAME_KEY = some (.str s) →
        s ∉ catalog.pluginNames →
        catalog.deserialize_config cat cfg = .error (.unknownPlugin s)) ∧
      (alookup cfg catalog.CONFIG_PLUGIN_NAME_KEY = some (.str "assign-wariness") →
        catalog.deserialize_config cat cfg = cat.assignWariness cfg) ∧
      (alookup cfg catalog.CONFIG_PLUGIN_NAME_KEY = some (.str "channel-filter") →
        catalog.deserialize_config cat cfg = cat.channelFilter cfg) ∧
      (alookup cfg catalog.CONFIG_PLUGIN_NAME_KEY = some (.str "edge-add-remove") →
        catalog.deserialize_config cat cfg = cat.edgeAddRemove cfg) ∧
      (alookup cfg catalog.CONFIG_PLUGIN_NAME_KEY = some (.str "node-remove") →
        catalog.deserialize_config cat cfg = cat.nodeRemove cfg) ∧
      (alookup cfg catalog.CONFIG_PLUGIN_NAME_KEY = some (.str "quay-metadata") →
        catalog.deserialize_config cat cfg = cat.quayMetadataFetch cfg) ∧
      (alookup cfg catalog.CONFIG_PLUGIN_NAME_KEY = some (.str "cincinnati-graph-fetch") →
        catalog.deserialize_config cat cfg = cat.cincinnatiGraphFetch cfg) := by
  intro σ cat cfg
  refine ⟨fun h => ?_, fun s h hs => ?_, fun h => ?_, fun h => ?_, fun h => ?_,
    fun h => ?_, fun h => ?_, fun h => ?_⟩
  · simp [catalog.deserialize_config, h]
  · simp only [catalog.pluginNames, List.mem_cons, List.not_mem_nil, or_false,
      not_or] at hs
    obtain ⟨h1, h2, h3, h4, h5, h6⟩ := hs
    simp [catalog.deserialize_config, h, h1, h2, h3, h4, h5, h6]
  all_goals simp [catalog.deserialize_config, h]

/-- A concrete plugin catalog whose deserializers return distinct tags,
used to witness the dispatch behavior. -/
def natCatalog : catalog.PluginCatalog Nat :=
  ⟨fun _ => .ok 1, fun _ => .ok 2, fun _ => .ok 3,
   fun _ => .ok 4, fun _ => .ok 5, fun _ => .ok 6⟩

/-- Witness for C9: the empty record, an unknown name and the
node-remove name, each at a concrete catalog. -/
theorem c9_deserialize_config_dispatch_witness :
    catalog.deserialize_config natCatalog [] = .error .missingPluginName ∧
    catalog.deserialize_config natCatalog [("name", .str "does-not-exist")] =
      .error (.unknownPlugin "does-not-exist") ∧
    catalog.deserialize_config natCatalog [("name", .str "node-remove")] = .ok 4 :=
  ⟨(c9_deserialize_config_dispatch natCatalog []).1 (by decide),
   (c9_deserialize_config_dispatch natCatalog
      [("name", .str "does-not-exist")]).2.1 "does-not-exist" (by decide) (by decide),
   ((c9_deserialize_config_dispatch natCatalog
      [("name", .str "node-remove")]).2.2.2.2.2.1 (by decide)).trans rfl⟩

namespace cache

/-- Delivering inserts never removes a tag from the negative set: a tag
is negative after the batch iff it was negative before or some None
insert for it occurs in the batch. -/
theorem mem_no_release_foldl :
    ∀ (msgs : List (String × Option registry.Release)) (s : CacheManager)
      (tag : String),
      (tag ∈ (msgs.foldl (fun s m => handleInsert s m.1 m.2) s).no_release) ↔
      (tag ∈ s.no_release ∨ (tag, (none : Option registry.Release)) ∈ msgs) := by
  intro msgs
  induction msgs with
  | nil => simp
  | cons m rest ih =>
    intro s tag
    obtain ⟨t, r⟩ := m
    simp only [List.foldl_cons, List.mem_cons, ih]
    cases r with
    | none =>
      simp only [handleInsert, List.mem_cons, Prod.mk.injEq]
      tauto
    | some rel =>
      simp only [handleInsert, Prod.mk.injEq]
      constructor
      · tauto
      · rintro (h1 | ⟨_, h2⟩ | h3)
        · exact Or.inl h1
        · exact absurd h2 (by simp)
        · exact Or.inr h3

/-- If every insert in the batch for this tag carries the same Some
release, then after the batch the tagged-release map holds exactly that
release for the tag, provided the batch mentions it or the starting map
already held it. -/
theorem alookup_tagged_foldl :
    ∀ (msgs : List (String × Option registry.Release)) (s : CacheManager)
      (tag : String) (rel : registry.Release),
      (∀ p ∈ msgs, p.1 = tag → p.2 = some rel) →
      ((tag, some rel) ∈ msgs ∨ alookup s.tagged_release tag = some rel) →
      alookup ((msgs.foldl (fun s m => handleInsert s m.1 m.2) s).tagged_release)
        tag = some rel := by
  intro msgs
  induction msgs with
  | nil =>
    intro s tag rel _ hbase
    simpa using hbase
  | cons m rest ih =>
    intro s tag rel hall hbase
    obtain ⟨t, r⟩ := m
    simp only [List.foldl_cons]
    by_cases ht : t = tag
    · subst ht
      have hr : r = some rel := hall (t, r) (List.mem_cons_self _ _) rfl
      subst hr
      refine ih _ t rel (fun p hp => hall p (List.mem_cons_of_mem _ hp)) ?_
      right
      simp [handleInsert, alookup]
    · refine ih _ tag rel (fun p hp => hall p (List.mem_cons_of_mem _ hp)) ?_
      rcases hbase with hmem | hlook
      · rcases List.mem_cons.mp hmem with heq | hmem2
        · exact absurd (congrArg Prod.fst heq).symm ht
        · exact Or.inl hmem2
      · right
        cases r with
        | none => simpa [handleInsert] using hlook
        | some rel2 => simpa [handleInsert, alookup, ht] using hlook

/-- A batch that never mentions the tag leaves its tagged-release
lookup unchanged. -/
theorem alookup_tagged_foldl_untouched :
    ∀ (msgs : List (String × Option registry.Release)) (s : CacheManager)
      (tag : String),
      (∀ p ∈ msgs, p.1 ≠ tag) →
      alookup ((msgs.foldl (fun s m => handleInsert s m.1 m.2) s).tagged_release)
        tag = alookup s.tagged_release tag := by
  intro msgs
  induction msgs with
  | nil => intro s tag _; rfl
  | cons m rest ih =>
    intro s tag hall
    obtain ⟨t, r⟩ := m
    have ht : t ≠ tag := hall (t, r) (List.mem_cons_self _ _)
    simp only [List.foldl_cons]
    rw [ih _ tag (fun p hp => hall p (List.mem_cons_of_mem _ hp))]
    cases r with
    | none => rfl
    | some rel2 => simp [handleInsert, alookup, ht]

end cache

/-- C3: if the batch of Insert messages delivered to the cache before a
Query for key h inserts exactly the value v for h (an inserted None
included), the query answers a hit (KnownTag) carrying exactly v —
distinguishable from a miss — and a query for a key no insert ever
mentioned answers a miss (VacantEntry). -/
theorem c3_cache_query_after_insert :
    ∀ (msgs : List (String × Option registry.Release)) (key : String)
      (v : Option registry.Release),
      ((key, v) ∈ msgs → (∀ p ∈ msgs, p.1 = key → p.2 = v) →
        cache.handleQuery (cache.runInserts msgs) key = .knownTag v) ∧
      ((∀ p ∈ msgs, p.1 ≠ key) →
        cache.handleQuery (cache.runInserts msgs) key = .vacantEntry) := by
  intro msgs key v
  constructor
  · intro hmem hall
    cases v with
    | none =>
      have hneg : key ∈ (cache.runInserts msgs).no_release := by
        rw [cache.runInserts, cache.mem_no_release_foldl]
        exact Or.inr hmem
      simp [cache.handleQuery, hneg]
    | some rel =>
      have hneg : key ∉ (cache.runInserts msgs).no_release := by
        rw [cache.runInserts, cache.mem_no_release_foldl]
        rintro (h1 | h2)
        · simp [cache.CacheManager.default] at h1
        · exact absurd (hall _ h2 rfl) (by simp)
      have hpos := cache.alookup_tagged_foldl msgs cache.CacheManager.default key
        rel hall (Or.inl hmem)
      rw [cache.runInserts] at *
      simp [cache.handleQuery, hneg, hpos]
  · intro hall
    have hneg : key ∉ (cache.runInserts msgs).no_release := by
      rw [cache.runInserts, cache.mem_no_release_foldl]
      rintro (h1 | h2)
      · simp [cache.CacheManager.default] at h1
      · exact absurd rfl (hall _ h2)
    have hpos := cache.alookup_tagged_foldl_untouched msgs
      cache.CacheManager.default key hall
    rw [cache.runInserts] at *
    rw [cache.handleQuery, if_neg hneg, hpos]
    rfl

/-- A concrete release used by the cache witness. -/
def relA : registry.Release := ⟨"quay.io/repo:a", ⟨.v0, "0.0.2", [], [], []⟩⟩

/-- Witness for C3: a None insert is answered as a hit with None, a
Some insert as a hit with that release, and an untouched key as a
miss. -/
theorem c3_cache_query_after_insert_witness :
    cache.handleQuery (cache.runInserts [("t1", none), ("t2", some relA)]) "t2" =
      .knownTag (some relA) ∧
    cache.handleQuery (cache.runInserts [("t1", none), ("t2", some relA)]) "t1" =
      .knownTag none ∧
    cache.handleQuery (cache.runInserts [("t1", none), ("t2", some relA)]) "t3" =
      .vacantEntry :=
  ⟨(c3_cache_query_after_insert [("t1", none), ("t2", some relA)] "t2"
      (some relA)).1 (by decide) (by decide),
   (c3_cache_query_after_insert [("t1", none), ("t2", some relA)] "t1" none).1
      (by decide) (by decide),
   (c3_cache_query_after_insert [("t1", none), ("t2", some relA)] "t3" none).2
      (by decide)⟩

namespace registry

/-- Entries before the first match are skipped: unreadable entries are
dropped by the filter and readable entries with a different (or
unreadable) header path fail the search predicate, so the search over
the archive finds exactly the first readable entry whose path equals
the filename. -/
theorem find_first_matching :
    ∀ (filename : String) (pre post : List (Except Unit TarEntry)) (e : TarEntry),
      (∀ x ∈ pre, x = .error () ∨ ∃ f, x = .ok f ∧ f.path ≠ .ok filename) →
      e.path = .ok filename →
      ((pre ++ .ok e :: post).filterMap (fun it =>
          match it with
          | .ok file => some file
          | .error _ => none)).find? (fun file =>
            match file.path with
            | .ok p => p == filename
            | .error _ => false) = some e := by
  intro filename pre post e hpre hpath
  induction pre with
  | nil =>
    simp only [List.nil_append, List.filterMap_cons]
    rw [List.find?_cons_of_pos _ (by simp [hpath])]
  | cons x pre ih =>
    have hx := hpre x (List.mem_cons_self _ _)
    have hrest : ∀ y ∈ pre, y = .error () ∨ ∃ f, y = .ok f ∧ f.path ≠ .ok filename :=
      fun y hy => hpre y (List.mem_cons_of_mem _ hy)
    rcases hx with hx | ⟨f, hx, hf⟩
    · subst hx
      simpa [List.filterMap_cons] using ih hrest
    · subst hx
      simp only [List.cons_append, List.filterMap_cons]
      rw [List.find?_cons_of_neg, ih hrest]
      cases hp : f.path with
      | error u => simp
      | ok p =>
        have : p ≠ filename := fun hpe => hf (by rw [hp, hpe])
        simp [this]

/-- If no readable entry carries the requested path, the search over
the archive finds nothing. -/
theorem find_no_matching :
    ∀ (filename : String) (items : List (Except Unit TarEntry)),
      (∀ x ∈ items, x = .error () ∨ ∃ f, x = .ok f ∧ f.path ≠ .ok filename) →
      (items.filterMap (fun it =>
          match it with
          | .ok file => some file
          | .error _ => none)).find? (fun file =>
            match file.path with
            | .ok p => p == filename
            | .error _ => false) = none := by
  intro filename items hitems
  induction items with
  | nil => rfl
  | cons x rest ih =>
    have hx := hitems x (List.mem_cons_self _ _)
    have hrest : ∀ y ∈ rest, y = .error () ∨ ∃ f, y = .ok f ∧ f.path ≠ .ok filename :=
      fun y hy => hitems y (List.mem_cons_of_mem _ hy)
    rcases hx with hx | ⟨f, hx, hf⟩
    · subst hx
      simpa [List.filterMap_cons] using ih hrest
    · subst hx
      simp only [List.filterMap_cons]
      rw [List.find?_cons_of_neg, ih hrest]
      cases hp : f.path with
      | error u => simp
      | ok p =>
        have : p ≠ filename := fun hpe => hf (by rw [hp, hpe])
        simp [this]

end registry

/-- C7: over the decoded archive, assemble_metadata returns the parsed
contents of the first readable entry whose path equals exactly
release-manifests/release-metadata — entries that fail to read, and
readable entries with a different or unreadable path, are skipped
without failing — it fails when that entry's contents do not parse as
Metadata, and it fails when no such entry exists. The result is a pure
function of the decoded input (the model is a function, so the result
depends only on the input bytes). -/
theorem c7_assemble_metadata_first_entry :
    ∀ (parseMeta : String → Option Metadata)
      (pre post : List (Except Unit registry.TarEntry))
      (e : registry.TarEntry) (s : String),
      ((∀ x ∈ pre, x = .error () ∨ ∃ f, x = .ok f ∧
          f.path ≠ .ok registry.metadata_filename) →
        e.path = .ok registry.metadata_filename →
        e.contents = .ok s →
        (∀ m, parseMeta s = some m →
          registry.assemble_metadata parseMeta ⟨.ok (pre ++ .ok e :: post)⟩
            registry.metadata_filename = .ok m) ∧
        (parseMeta s = none →
          registry.assemble_metadata parseMeta ⟨.ok (pre ++ .ok e :: post)⟩
            registry.metadata_filename = .error ())) ∧
      (∀ items : List (Except Unit registry.TarEntry),
        (∀ x ∈ items, x = .error () ∨ ∃ f, x = .ok f ∧
            f.path ≠ .ok registry.metadata_filename) →
        registry.assemble_metadata parseMeta ⟨.ok items⟩
          registry.metadata_filename = .error ()) := by
  intro parseMeta pre post e s
  constructor
  · intro hpre hpath hcont
    constructor
    · intro m hm
      simp only [registry.assemble_metadata,
        registry.find_first_matching registry.metadata_filename pre post e hpre hpath,
        hcont, hm]
    · intro hm
      simp only [registry.assemble_metadata,
        registry.find_first_matching registry.metadata_filename pre post e hpre hpath,
        hcont, hm]
  · intro items hitems
    simp only [registry.assemble_metadata,
      registry.find_no_matching registry.metadata_filename items hitems]

/-- A concrete Metadata value for witnesses. -/
def md0 : Metadata := ⟨.v0, "0.0.1", [], [], []⟩

/-- A concrete JSON parser for witnesses: only the string "good"
parses, to md0. -/
def pmGood : String → Option Metadata := fun s => if s = "good" then some md0 else none

/-- Witness for C7: an archive whose first readable matching entry
follows an unreadable entry and a mismatching entry parses to md0; an
archive with no matching readable entry fails. -/
theorem c7_assemble_metadata_first_entry_witness :
    registry.assemble_metadata pmGood
      ⟨.ok [.error (), .ok ⟨.ok "other", .ok "x"⟩,
            .ok ⟨.ok registry.metadata_filename, .ok "good"⟩,
            .ok ⟨.ok registry.metadata_filename, .ok "bad"⟩]⟩
      registry.metadata_filename = .ok md0 ∧
    registry.assemble_metadata pmGood
      ⟨.ok [.error (), .ok ⟨.error (), .ok "y"⟩]⟩
      registry.metadata_filename = .error () := by
  constructor
  · exact (c7_assemble_metadata_first_entry pmGood
      [.error (), .ok ⟨.ok "other", .ok "x"⟩]
      [.ok ⟨.ok registry.metadata_filename, .ok "bad"⟩]
      ⟨.ok registry.metadata_filename, .ok "good"⟩ "good").1
      (by
        intro x hx
        simp only [List.mem_cons, List.not_mem_nil, or_false] at hx
        rcases hx with rfl | rfl
        · exact Or.inl rfl
        · exact Or.inr ⟨⟨.ok "other", .ok "x"⟩, rfl, by decide⟩)
      rfl rfl |>.1 md0 rfl
  · exact (c7_assemble_metadata_first_entry pmGood [] []
      ⟨.ok registry.metadata_filename, .ok "good"⟩ "good").2
      [.error (), .ok ⟨.error (), .ok "y"⟩]
      (by
        intro x hx
        simp only [List.mem_cons, List.not_mem_nil, or_false] at hx
        rcases hx with rfl | rfl
        · exact Or.inl rfl
        · exact Or.inr ⟨⟨.error (), .ok "y"⟩, rfl, by decide⟩)

namespace registry

/-- Layers whose blob fetch succeeds but whose extraction fails are
skipped: the first layer whose extraction succeeds determines the
release, and the layers after it are never consulted (post is
unconstrained — it may even contain digests whose blob fetch fails). -/
theorem find_first_release_skips :
    ∀ (blobOf : String → Except Unit Blob) (parseMeta : String → Option Metadata)
      (registry_host repo repo_tag : String)
      (pre post : List String) (d : String) (b : Blob) (m : Metadata),
      (∀ d2 ∈ pre, ∃ b2, blobOf d2 = .ok b2 ∧
        assemble_metadata parseMeta b2 metadata_filename = .error ()) →
      blobOf d = .ok b →
      assemble_metadata parseMeta b metadata_filename = .ok m →
      find_first_release blobOf parseMeta registry_host repo repo_tag
        (pre ++ d :: post) =
        .ok (repo_tag, some ⟨registry_host ++ "/" ++ repo ++ ":" ++ repo_tag, m⟩) := by
  intro blobOf parseMeta registry_host repo repo_tag pre post d b m hpre hb hm
  induction pre with
  | nil =>
    simp only [List.nil_append, find_first_release, hb, hm]
  | cons d2 pre ih =>
    obtain ⟨b2, hb2, hfail⟩ := hpre d2 (List.mem_cons_self _ _)
    simp only [List.cons_append, find_first_release, hb2, hfail]
    exact ih fun d3 hd3 => hpre d3 (List.mem_cons_of_mem _ hd3)

/-- When every layer's blob fetches but none yields metadata, the tag
resolves to None (no release) rather than an error. -/
theorem find_first_release_none :
    ∀ (blobOf : String → Except Unit Blob) (parseMeta : String → Option Metadata)
      (registry_host repo repo_tag : String) (digests : List String),
      (∀ d ∈ digests, ∃ b, blobOf d = .ok b ∧
        assemble_metadata parseMeta b metadata_filename = .error ()) →
      find_first_release blobOf parseMeta registry_host repo repo_tag digests =
        .ok (repo_tag, none) := by
  intro blobOf parseMeta registry_host repo repo_tag digests hall
  induction digests with
  | nil => rfl
  | cons d rest ih =>
    obtain ⟨b, hb, hfail⟩ := hall d (List.mem_cons_self _ _)
    simp only [find_first_release, hb, hfail]
    exact ih fun d2 hd2 => hall d2 (List.mem_cons_of_mem _ hd2)

/-- On a cache miss, cache_release runs find_first_release and caches
its result under the digest hash. -/
theorem cache_release_miss :
    ∀ (blobOf : String → Except Unit Blob) (parseMeta : String → Option Metadata)
      (H : List String → Nat) (registry_host repo tag : String)
      (digests : List String) (cache : List (Nat × Option Release))
      (r : Option Release),
      alookup cache (H digests) = none →
      find_first_release blobOf parseMeta registry_host repo tag digests =
        .ok (tag, r) →
      cache_release blobOf parseMeta H registry_host repo tag digests cache =
        .ok (r, (H digests, r) :: cache) := by
  intro blobOf parseMeta H registry_host repo tag digests cache r hmiss hffr
  simp only [cache_release, hmiss, hffr]

end registry

/-- C6: for a tag whose digest hash misses the cache, the layers are
tried in digest order: extraction failures (with fetched blobs) are
skipped, the first layer whose blob yields a successful extraction
determines the release and no later layer is attempted (the digests
after it are wholly unconstrained), and if every layer fetches but
none yields metadata the tag is recorded as None; in both cases the
result is inserted into the cache under the digest hash. -/
theorem c6_cache_miss_tries_layers_in_order :
    ∀ (blobOf : String → Except Unit registry.Blob)
      (parseMeta : String → Option Metadata) (H : List String → Nat)
      (registry_host repo tag : String) (cache : List (Nat × Option registry.Release)),
      (∀ (pre post : List String) (d : String) (b : registry.Blob) (m : Metadata),
        alookup cache (H (pre ++ d :: post)) = none →
        (∀ d2 ∈ pre, ∃ b2, blobOf d2 = .ok b2 ∧
          registry.assemble_metadata parseMeta b2 registry.metadata_filename =
            .error ()) →
        blobOf d = .ok b →
        registry.assemble_metadata parseMeta b registry.metadata_filename = .ok m →
        registry.cache_release blobOf parseMeta H registry_host repo tag
          (pre ++ d :: post) cache =
          .ok (some ⟨registry_host ++ "/" ++ repo ++ ":" ++ tag, m⟩,
               (H (pre ++ d :: post),
                some ⟨registry_host ++ "/" ++ repo ++ ":" ++ tag, m⟩) :: cache)) ∧
      (∀ digests : List String,
        alookup cache (H digests) = none →
        (∀ d ∈ digests, ∃ b, blobOf d = .ok b ∧
          registry.assemble_metadata parseMeta b registry.metadata_filename =
            .error ()) →
        registry.cache_release blobOf parseMeta H registry_host repo tag
          digests cache = .ok (none, (H digests, none) :: cache)) := by
  intro blobOf parseMeta H registry_host repo tag cache
  constructor
  · intro pre post d b m hmiss hpre hb hm
    exact registry.cache_release_miss blobOf parseMeta H registry_host repo tag
      (pre ++ d :: post) cache _ hmiss
      (registry.find_first_release_skips blobOf parseMeta registry_host repo tag
        pre post d b m hpre hb hm)
  · intro digests hmiss hall
    exact registry.cache_release_miss blobOf parseMeta H registry_host repo tag
      digests cache none hmiss
      (registry.find_first_release_none blobOf parseMeta registry_host repo tag
        digests hall)

/-- A blob whose archive holds exactly the matching metadata entry with
parsable contents. -/
def goodBlob : registry.Blob :=
  ⟨.ok [.ok ⟨.ok registry.metadata_filename, .ok "good"⟩]⟩

/-- A blob whose archive is empty, so extraction fails. -/
def badBlob : registry.Blob := ⟨.ok []⟩

/-- A concrete blob fetcher: digest d1 yields the empty archive, d2 the
metadata-bearing archive, anything else fails to fetch. -/
def wBlobOf : String → Except Unit registry.Blob := fun d =>
  if d = "d1" then .ok badBlob else if d = "d2" then .ok goodBlob else .error ()

/-- Witness for C6: with digests [d1, d2, d3], layer d1 fails
extraction and is skipped, layer d2 yields the release and layer d3 —
whose blob fetch would fail — is never attempted; with digests [d1]
alone the tag caches as None. -/
theorem c6_cache_miss_tries_layers_in_order_witness :
    registry.cache_release wBlobOf pmGood (fun ds => ds.length) "h" "r" "t"
      ["d1", "d2", "d3"] [] =
      .ok (some ⟨"h/r:t", md0⟩, [(3, some ⟨"h/r:t", md0⟩)]) ∧
    registry.cache_release wBlobOf pmGood (fun ds => ds.length) "h" "r" "t"
      ["d1"] [] = .ok (none, [(1, none)]) := by
  constructor
  · exact (c6_cache_miss_tries_layers_in_order wBlobOf pmGood
      (fun ds => ds.length) "h" "r" "t" []).1 ["d1"] ["d3"] "d2" goodBlob md0
      rfl
      (by
        intro d2 hd2
        simp only [List.mem_singleton] at hd2
        subst hd2
        exact ⟨badBlob, rfl, rfl⟩)
      rfl rfl
  · exact (c6_cache_miss_tries_layers_in_order wBlobOf pmGood
      (fun ds => ds.length) "h" "r" "t" []).2 ["d1"]
      rfl
      (by
        intro d hd
        simp only [List.mem_singleton] at hd
        subst hd
        exact ⟨badBlob, rfl, rfl⟩)

namespace registry

/-- A manifest failure for any tag of the stream aborts the whole
collection with an error. -/
theorem collect_tagged_layers_error :
    ∀ (manifestLayers : String → Except Unit (List String)) (tags : List String),
      (∃ t ∈ tags, manifestLayers t = .error ()) →
      collect_tagged_layers manifestLayers tags = .error () := by
  intro man tags
  induction tags with
  | nil =>
    rintro ⟨t, ht, _⟩
    cases ht
  | cons t rest ih =>
    rintro ⟨t2, ht2, herr⟩
    rcases List.mem_cons.mp ht2 with rfl | hmem
    · simp only [collect_tagged_layers, herr]
    · cases hman : man t with
      | error e =>
        cases e
        simp only [collect_tagged_layers, hman]
      | ok ds =>
        simp only [collect_tagged_layers, hman, ih ⟨t2, hmem, herr⟩]

/-- When every blob fetch succeeds, find_first_release cannot error:
it answers the tag with some release or with none. -/
theorem find_first_release_ok :
    ∀ (blobOf : String → Except Unit Blob) (parseMeta : String → Option Metadata)
      (registry_host repo tag : String) (digests : List String),
      (∀ d, ∃ b, blobOf d = .ok b) →
      ∃ r, find_first_release blobOf parseMeta registry_host repo tag digests =
        .ok (tag, r) := by
  intro blobOf parseMeta registry_host repo tag digests htotal
  induction digests with
  | nil => exact ⟨none, rfl⟩
  | cons d rest ih =>
    obtain ⟨b, hb⟩ := htotal d
    cases hasm : assemble_metadata parseMeta b metadata_filename with
    | ok m =>
      exact ⟨some ⟨registry_host ++ "/" ++ repo ++ ":" ++ tag, m⟩,
        by simp only [find_first_release, hb, hasm]⟩
    | error u =>
      cases u
      obtain ⟨r, hr⟩ := ih
      exact ⟨r, by simp only [find_first_release, hb, hasm, hr]⟩

/-- The release part of a per-tag lookup result; an errored lookup
carries no release. -/
def relOf : Except Unit (String × Option Release) → Option Release
  | .ok (_, r) => r
  | .error _ => none

/-- With all blobs fetchable, a cache that misses every pending hash
and pairwise-distinct digest hashes, the release loop succeeds and
yields, in tag order, exactly the first-extraction release of each
tag's own digest list. -/
theorem fetch_loop_fresh :
    ∀ (blobOf : String → Except Unit Blob) (parseMeta : String → Option Metadata)
      (H : List String → Nat) (registry_host repo : String)
      (tagged : List (String × List String)),
      ∀ (cache : List (Nat × Option Release)),
      (∀ d, ∃ b, blobOf d = .ok b) →
      (∀ p ∈ tagged, alookup cache (H p.2) = none) →
      tagged.Pairwise (fun p q => H p.2 ≠ H q.2) →
      ∃ cache2,
        fetch_loop blobOf parseMeta H registry_host repo tagged cache =
          .ok (tagged.filterMap (fun p =>
            relOf (find_first_release blobOf parseMeta registry_host repo
              p.1 p.2)), cache2) := by
  intro blobOf parseMeta H registry_host repo tagged
  induction tagged with
  | nil =>
    intro cache _ _ _
    exact ⟨cache, rfl⟩
  | cons p rest ih =>
    intro cache htotal hmiss hpw
    obtain ⟨t, ds⟩ := p
    have hm : alookup cache (H ds) = none := hmiss _ (List.mem_cons_self _ _)
    obtain ⟨r, hffr⟩ :=
      find_first_release_ok blobOf parseMeta registry_host repo t ds htotal
    have hcr := cache_release_miss blobOf parseMeta H registry_host repo t ds
      cache r hm hffr
    have hpw2 := List.pairwise_cons.mp hpw
    have hmiss2 : ∀ q ∈ rest, alookup ((H ds, r) :: cache) (H q.2) = none := by
      intro q hq
      have hne : H ds ≠ H q.2 := hpw2.1 q hq
      simp only [alookup]
      rw [if_neg hne]
      exact hmiss q (List.mem_cons_of_mem _ hq)
    obtain ⟨cache3, hrest⟩ := ih ((H ds, r) :: cache) htotal hmiss2 hpw2.2
    refine ⟨cache3, ?_⟩
    simp only [fetch_loop, hcr, hrest, List.filterMap_cons, hffr]
    cases r <;> rfl

end registry

/-- C2 (amended): only metadata-extraction failures are tolerated
per-tag — if every tag's manifest fetch succeeds and every blob fetch
succeeds, fetch_releases succeeds and a tag all of whose layers fail
extraction merely contributes no release, the others' releases being
returned in tag order — whereas a failure of any single tag's manifest
fetch aborts the whole fetch_releases call with an error. -/
theorem c2_single_tag_failure :
    ∀ (manifestLayers : String → Except Unit (List String))
      (blobOf : String → Except Unit registry.Blob)
      (parseMeta : String → Option Metadata) (H : List String → Nat)
      (registry_host repo : String) (tags : List String)
      (tagged : List (String × List String))
      (cache : List (Nat × Option registry.Release)),
      (registry.collect_tagged_layers manifestLayers tags = .ok tagged →
        (∀ d, ∃ b, blobOf d = .ok b) →
        tagged.Pairwise (fun p q => H p.2 ≠ H q.2) →
        ∃ cache2,
          registry.fetch_releases manifestLayers blobOf parseMeta H registry_host
            repo tags [] =
            .ok (tagged.filterMap (fun p =>
              registry.relOf (registry.find_first_release blobOf parseMeta
                registry_host repo p.1 p.2)), cache2)) ∧
      ((∃ t ∈ tags, manifestLayers t = .error ()) →
        registry.fetch_releases manifestLayers blobOf parseMeta H registry_host
          repo tags cache = .error ()) := by
  intro man blobOf parseMeta H registry_host repo tags tagged cache
  constructor
  · intro hcol htotal hpw
    obtain ⟨cache2, h⟩ := registry.fetch_loop_fresh blobOf parseMeta H
      registry_host repo tagged [] htotal (fun p _ => rfl) hpw
    exact ⟨cache2, by simp only [registry.fetch_releases, hcol, h]⟩
  · intro hex
    simp only [registry.fetch_releases,
      registry.collect_tagged_layers_error man tags hex]

/-- A concrete manifest fetcher failing for every tag but "b". -/
def cexMan : String → Except Unit (List String) := fun t =>
  if t = "b" then .ok ["d2"] else .error ()

/-- Counterexample to C2 as stated: with tags [a, b], where only tag
a's manifest fetch fails and tag b alone yields a release, the code
aborts the whole cycle with an error instead of skipping tag a and
returning tag b's release (which it does return when scanning b
alone). -/
theorem c2_counterexample_manifest_failure_aborts :
    registry.fetch_releases cexMan wBlobOf pmGood (fun ds => ds.length)
      "h" "r" ["a", "b"] [] = .error () ∧
    registry.fetch_releases cexMan wBlobOf pmGood (fun ds => ds.length)
      "h" "r" ["b"] [] =
      .ok ([⟨"h/r:b", md0⟩], [(1, some ⟨"h/r:b", md0⟩)]) := by
  exact ⟨rfl, rfl⟩

/-- Witness for C2 (amended): a tag whose single layer fails extraction
still yields a successful (empty) cycle, and a tag with a failing
manifest fetch aborts the cycle. -/
theorem c2_single_tag_failure_witness :
    (∃ cache2,
      registry.fetch_releases (fun _ => .ok ["d1"]) (fun _ => .ok badBlob) pmGood
        (fun ds => ds.length) "h" "r" ["x"] [] =
        .ok ([("x", ["d1"])].filterMap (fun p =>
          registry.relOf (registry.find_first_release (fun _ => .ok badBlob)
            pmGood "h" "r" p.1 p.2)), cache2)) ∧
    registry.fetch_releases cexMan (fun _ => .ok badBlob) pmGood
      (fun ds => ds.length) "h" "r" ["a"] [] = .error () := by
  constructor
  · exact (c2_single_tag_failure (fun _ => .ok ["d1"]) (fun _ => .ok badBlob)
      pmGood (fun ds => ds.length) "h" "r" ["x"] [("x", ["d1"])] []).1
      rfl (fun d => ⟨badBlob, rfl⟩) (by simp)
  · exact (c2_single_tag_failure cexMan (fun _ => .ok badBlob) pmGood
      (fun ds => ds.length) "h" "r" ["a"] [("a", [])] []).2
      ⟨"a", by simp, rfl⟩

namespace cincinnati

/-- A successful version search points at a node carrying exactly that
version. -/
theorem findVersionIdx_get :
    ∀ (nodes : List Release) (v : String) (i : Nat),
      findVersionIdx nodes v = some i →
      ∃ r, nodes.get? i = some r ∧ r.version = v := by
  intro nodes
  induction nodes with
  | nil => intro v i h; cases h
  | cons r rest ih =>
    intro v i h
    by_cases hr : r.version = v
    · rw [findVersionIdx, if_pos hr] at h
      cases h
      exact ⟨r, rfl, hr⟩
    · rw [findVersionIdx, if_neg hr] at h
      cases hfi : findVersionIdx rest v with
      | none => rw [hfi] at h; cases h
      | some j =>
        rw [hfi] at h
        injection h with h2
        subst h2
        obtain ⟨r2, hg, hv⟩ := ih v j hfi
        exact ⟨r2, by simpa using hg, hv⟩

/-- Appending nodes never disturbs an existing version search result. -/
theorem findVersionIdx_append :
    ∀ (nodes extra : List Release) (v : String) (i : Nat),
      findVersionIdx nodes v = some i →
      findVersionIdx (nodes ++ extra) v = some i := by
  intro nodes extra
  induction nodes with
  | nil => intro v i h; cases h
  | cons r rest ih =>
    intro v i h
    by_cases hr : r.version = v
    · rw [findVersionIdx, if_pos hr] at h
      rw [List.cons_append, findVersionIdx, if_pos hr]
      exact h
    · rw [findVersionIdx, if_neg hr] at h
      rw [List.cons_append, findVersionIdx, if_neg hr]
      cases hfi : findVersionIdx rest v with
      | none => rw [hfi] at h; cases h
      | some j =>
        rw [hfi] at h
        rw [ih v j hfi]
        exact h

/-- Appending a node with a version that was absent makes that version
findable at the old length. -/
theorem findVersionIdx_append_singleton :
    ∀ (nodes : List Release) (r : Release),
      findVersionIdx nodes r.version = none →
      findVersionIdx (nodes ++ [r]) r.version = some nodes.length := by
  intro nodes r
  induction nodes with
  | nil =>
    intro _
    rw [List.nil_append, findVersionIdx, if_pos rfl]
    rfl
  | cons n rest ih =>
    intro h
    rw [findVersionIdx] at h
    by_cases hn : n.version = r.version
    · rw [if_pos hn] at h; cases h
    · rw [if_neg hn] at h
      cases hfi : findVersionIdx rest r.version with
      | some j => rw [hfi] at h; cases h
      | none =>
        rw [List.cons_append, findVersionIdx, if_neg hn, ih hfi]
        simp [List.length_cons]

/-- Replacing a node by one carrying the same version leaves every
version search untouched. -/
theorem findVersionIdx_set_same :
    ∀ (nodes : List Release) (i : Nat) (r1 r2 : Release),
      nodes.get? i = some r1 → r1.version = r2.version →
      ∀ v, findVersionIdx (nodes.set i r2) v = findVersionIdx nodes v := by
  intro nodes
  induction nodes with
  | nil => intro i r1 r2 h; cases h
  | cons n rest ih =>
    intro i r1 r2 hget hv v
    cases i with
    | zero =>
      simp only [List.get?_cons_zero, Option.some.injEq] at hget
      subst hget
      simp only [List.set_cons_zero, findVersionIdx, ← hv]
    | succ i =>
      simp only [List.get?_cons_succ] at hget
      simp only [List.set_cons_succ, findVersionIdx, ih i r1 r2 hget hv v]

/-- One graph preserves another when every version keeps its node index
and every edge survives; all the builder's single steps preserve the
graphs they extend. -/
def Preserves (g g2 : Graph) : Prop :=
  (∀ v k, g.find_by_version v = some k → g2.find_by_version v = some k) ∧
  (∀ e, e ∈ g.edges → e ∈ g2.edges)

/-- Preservation is reflexive. -/
theorem preserves_refl (g : Graph) : Preserves g g :=
  ⟨fun _ _ h => h, fun _ h => h⟩

/-- Preservation composes. -/
theorem preserves_trans {g1 g2 g3 : Graph} :
    Preserves g1 g2 → Preserves g2 g3 → Preserves g1 g3 :=
  fun h12 h23 =>
    ⟨fun v k h => h23.1 v k (h12.1 v k h), fun e h => h23.2 e (h12.2 e h)⟩

/-- A successful add_release preserves the graph and leaves the added
release's version findable at the returned index. -/
theorem add_release_ok :
    ∀ (g : Graph) (r : Release) (i : Nat) (g2 : Graph),
      g.add_release r = .ok (i, g2) →
      Preserves g g2 ∧ g2.find_by_version r.version = some i := by
  intro g r i g2 h
  cases hf : g.find_by_version r.version with
  | none =>
    simp only [Graph.add_release, hf, Except.ok.injEq, Prod.mk.injEq] at h
    obtain ⟨hi, hg2⟩ := h
    subst hi
    subst hg2
    refine ⟨⟨fun v k hk => ?_, fun e he => he⟩, ?_⟩
    · exact findVersionIdx_append g.nodes [r] v k hk
    · exact findVersionIdx_append_singleton g.nodes r hf
  | some j =>
    obtain ⟨node, hget, hver⟩ := findVersionIdx_get g.nodes r.version j hf
    cases node with
    | concrete nv np nm =>
      cases r with
      | concrete v p m =>
        simp only [Graph.add_release, hf, hget] at h
        cases h
      | abstract w2 =>
        simp only [Graph.add_release, hf, hget] at h
        cases h
    | abstract w =>
      cases r with
      | abstract w2 =>
        simp only [Graph.add_release, hf, hget] at h
        cases h
      | concrete v p m =>
        simp only [Graph.add_release, hf, hget, Except.ok.injEq,
          Prod.mk.injEq] at h
        obtain ⟨hi, hg2⟩ := h
        subst hi
        subst hg2
        have hsame : ∀ u, findVersionIdx (g.nodes.set j (.concrete v p m)) u =
            findVersionIdx g.nodes u := fun u =>
          findVersionIdx_set_same g.nodes j (.abstract w) (.concrete v p m)
            hget hver u
        refine ⟨⟨fun u k hk => ?_, fun e he => he⟩, ?_⟩
        · rw [Graph.find_by_version] at hk ⊢
          rw [hsame u]
          exact hk
        · rw [Graph.find_by_version]
          rw [hsame]
          exact hf

/-- A successful add_transition preserves the graph and makes the edge
present. -/
theorem add_transition_ok :
    ∀ (g : Graph) (a b : Nat) (g2 : Graph),
      g.add_transition a b = .ok g2 →
      Preserves g g2 ∧ (a, b) ∈ g2.edges := by
  intro g a b g2 h
  rw [Graph.add_transition] at h
  by_cases hab : a = b
  · rw [if_pos hab] at h
    cases h
  · rw [if_neg hab] at h
    by_cases hmem : (a, b) ∈ g.edges
    · rw [if_pos hmem] at h
      cases h
      exact ⟨preserves_refl g, hmem⟩
    · rw [if_neg hmem] at h
      cases h
      refine ⟨⟨fun v k hk => hk, fun e he => List.mem_append_left _ he⟩, ?_⟩
      exact List.mem_append_right _ (List.mem_singleton_self _)

/-- The graph carries an edge between the nodes of two versions. -/
def hasVersionEdge (g : Graph) (va vb : String) : Prop :=
  ∃ i j, g.find_by_version va = some i ∧ g.find_by_version vb = some j ∧
    (i, j) ∈ g.edges

/-- Version-level edges survive preservation. -/
theorem hasVersionEdge_mono {g g2 : Graph} {va vb : String} :
    Preserves g g2 → hasVersionEdge g va vb → hasVersionEdge g2 va vb := by
  rintro hp ⟨i, j, ha, hb, he⟩
  exact ⟨i, j, hp.1 va i ha, hp.1 vb j hb, hp.2 _ he⟩

end cincinnati

namespace graph

/-- resolveOrAbstract preserves the graph and makes the requested
version findable at the returned index (reused or freshly Abstract). -/
theorem resolveOrAbstract_ok :
    ∀ (g : cincinnati.Graph) (v : String) (i : Nat) (g2 : cincinnati.Graph),
      resolveOrAbstract g v = .ok (i, g2) →
      cincinnati.Preserves g g2 ∧ g2.find_by_version v = some i := by
  intro g v i g2 h
  cases hf : g.find_by_version v with
  | some id =>
    simp only [resolveOrAbstract, hf, Except.ok.injEq, Prod.mk.injEq] at h
    obtain ⟨hi, hg2⟩ := h
    subst hi
    subst hg2
    exact ⟨cincinnati.preserves_refl g, hf⟩
  | none =>
    simp only [resolveOrAbstract, hf] at h
    exact cincinnati.add_release_ok g (.abstract v) i g2 h

/-- A successful previous-edge step preserves the graph and installs a
version-level edge from v to the current release's version. -/
theorem addPreviousEdge_ok :
    ∀ (g : cincinnati.Graph) (current : Nat) (rv v : String)
      (g2 : cincinnati.Graph),
      g.find_by_version rv = some current →
      addPreviousEdge current g v = .ok g2 →
      cincinnati.Preserves g g2 ∧ cincinnati.hasVersionEdge g2 v rv := by
  intro g current rv v g2 hcur h
  cases hra : resolveOrAbstract g v with
  | error e =>
    simp only [addPreviousEdge, hra] at h
    cases h
  | ok pr =>
    obtain ⟨p, ga⟩ := pr
    simp only [addPreviousEdge, hra] at h
    obtain ⟨hpga, hfind⟩ := resolveOrAbstract_ok g v p ga hra
    obtain ⟨hpg2, hedge⟩ := cincinnati.add_transition_ok ga p current g2 h
    refine ⟨cincinnati.preserves_trans hpga hpg2, ?_⟩
    exact ⟨p, current, hpg2.1 v p hfind,
      hpg2.1 rv current (hpga.1 rv current hcur), hedge⟩

/-- A successful next-edge step preserves the graph and installs a
version-level edge from the current release's version to v. -/
theorem addNextEdge_ok :
    ∀ (g : cincinnati.Graph) (current : Nat) (rv v : String)
      (g2 : cincinnati.Graph),
      g.find_by_version rv = some current →
      addNextEdge current g v = .ok g2 →
      cincinnati.Preserves g g2 ∧ cincinnati.hasVersionEdge g2 rv v := by
  intro g current rv v g2 hcur h
  cases hra : resolveOrAbstract g v with
  | error e =>
    simp only [addNextEdge, hra] at h
    cases h
  | ok pr =>
    obtain ⟨n, ga⟩ := pr
    simp only [addNextEdge, hra] at h
    obtain ⟨hpga, hfind⟩ := resolveOrAbstract_ok g v n ga hra
    obtain ⟨hpg2, hedge⟩ := cincinnati.add_transition_ok ga current n g2 h
    refine ⟨cincinnati.preserves_trans hpga hpg2, ?_⟩
    exact ⟨current, n, hpg2.1 rv current (hpga.1 rv current hcur),
      hpg2.1 v n hfind, hedge⟩

/-- Folding the previous-loop over a version list preserves the graph,
keeps the current node where it was, and installs a version-level edge
into the current release from every listed version. -/
theorem foldE_addPreviousEdge :
    ∀ (vs : List String) (g : cincinnati.Graph) (current : Nat) (rv : String)
      (g2 : cincinnati.Graph),
      g.find_by_version rv = some current →
      foldE (addPreviousEdge current) g vs = .ok g2 →
      cincinnati.Preserves g g2 ∧ g2.find_by_version rv = some current ∧
        ∀ v ∈ vs, cincinnati.hasVersionEdge g2 v rv := by
  intro vs
  induction vs with
  | nil =>
    intro g current rv g2 hcur h
    cases h
    exact ⟨cincinnati.preserves_refl g, hcur,
      fun v hv => absurd hv (List.not_mem_nil v)⟩
  | cons v vs ih =>
    intro g current rv g2 hcur h
    cases hstep : addPreviousEdge current g v with
    | error e =>
      simp only [foldE, hstep] at h
      cases h
    | ok gm =>
      simp only [foldE, hstep] at h
      obtain ⟨hpgm, hedge⟩ := addPreviousEdge_ok g current rv v gm hcur hstep
      obtain ⟨hp2, hcur3, hrest⟩ := ih gm current rv g2
        (hpgm.1 rv current hcur) h
      refine ⟨cincinnati.preserves_trans hpgm hp2, hcur3, ?_⟩
      intro u hu
      rcases List.mem_cons.mp hu with rfl | hu2
      · exact cincinnati.hasVersionEdge_mono hp2 hedge
      · exact hrest u hu2

/-- Folding the next-loop over a version list preserves the graph,
keeps the current node where it was, and installs a version-level edge
out of the current release to every listed version. -/
theorem foldE_addNextEdge :
    ∀ (vs : List String) (g : cincinnati.Graph) (current : Nat) (rv : String)
      (g2 : cincinnati.Graph),
      g.find_by_version rv = some current →
      foldE (addNextEdge current) g vs = .ok g2 →
      cincinnati.Preserves g g2 ∧ g2.find_by_version rv = some current ∧
        ∀ v ∈ vs, cincinnati.hasVersionEdge g2 rv v := by
  intro vs
  induction vs with
  | nil =>
    intro g current rv g2 hcur h
    cases h
    exact ⟨cincinnati.preserves_refl g, hcur,
      fun v hv => absurd hv (List.not_mem_nil v)⟩
  | cons v vs ih =>
    intro g current rv g2 hcur h
    cases hstep : addNextEdge current g v with
    | error e =>
      simp only [foldE, hstep] at h
      cases h
    | ok gm =>
      simp only [foldE, hstep] at h
      obtain ⟨hpgm, hedge⟩ := addNextEdge_ok g current rv v gm hcur hstep
      obtain ⟨hp2, hcur3, hrest⟩ := ih gm current rv g2
        (hpgm.1 rv current hcur) h
      refine ⟨cincinnati.preserves_trans hpgm hp2, hcur3, ?_⟩
      intro u hu
      rcases List.mem_cons.mp hu with rfl | hu2
      · exact cincinnati.hasVersionEdge_mono hp2 hedge
      · exact hrest u hu2

/-- Adding one release preserves the graph, leaves the release's
version present, and installs every previous- and next-edge it lists. -/
theorem addOneRelease_ok :
    ∀ (g : cincinnati.Graph) (r : registry.Release) (g2 : cincinnati.Graph),
      addOneRelease g r = .ok g2 →
      cincinnati.Preserves g g2 ∧
      (∃ k, g2.find_by_version r.metadata.version = some k) ∧
      (∀ v ∈ r.metadata.previous,
        cincinnati.hasVersionEdge g2 v r.metadata.version) ∧
      (∀ v ∈ r.metadata.next,
        cincinnati.hasVersionEdge g2 r.metadata.version v) := by
  intro g r g2 h
  cases har : g.add_release r.intoCincinnati with
  | error e =>
    simp only [addOneRelease, har] at h
    cases h
  | ok pr =>
    obtain ⟨current, g1⟩ := pr
    simp only [addOneRelease, har] at h
    obtain ⟨hp1, hfind1⟩ :=
      cincinnati.add_release_ok g r.intoCincinnati current g1 har
    cases hfold1 : foldE (addPreviousEdge current) g1 r.metadata.previous with
    | error e =>
      simp only [hfold1] at h
      cases h
    | ok gm =>
      simp only [hfold1] at h
      obtain ⟨hpm, hcurm, hprev⟩ := foldE_addPreviousEdge r.metadata.previous
        g1 current r.metadata.version gm hfind1 hfold1
      obtain ⟨hpn, hcurn, hnext⟩ := foldE_addNextEdge r.metadata.next gm
        current r.metadata.version g2 hcurm h
      refine ⟨cincinnati.preserves_trans hp1
        (cincinnati.preserves_trans hpm hpn), ⟨current, hcurn⟩, ?_, hnext⟩
      intro v hv
      exact cincinnati.hasVersionEdge_mono hpn (hprev v hv)

/-- Folding all releases into the graph accumulates, for every release,
a present node for its version plus all its previous- and next-edges. -/
theorem foldE_addOneRelease :
    ∀ (rels : List registry.Release) (g0 g2 : cincinnati.Graph),
      foldE addOneRelease g0 rels = .ok g2 →
      cincinnati.Preserves g0 g2 ∧
        ∀ r ∈ rels,
          (∃ k, g2.find_by_version r.metadata.version = some k) ∧
          (∀ v ∈ r.metadata.previous,
            cincinnati.hasVersionEdge g2 v r.metadata.version) ∧
          (∀ v ∈ r.metadata.next,
            cincinnati.hasVersionEdge g2 r.metadata.version v) := by
  intro rels
  induction rels with
  | nil =>
    intro g0 g2 h
    cases h
    exact ⟨cincinnati.preserves_refl g0,
      fun r hr => absurd hr (List.not_mem_nil r)⟩
  | cons r rels ih =>
    intro g0 g2 h
    cases hstep : addOneRelease g0 r with
    | error e =>
      simp only [foldE, hstep] at h
      cases h
    | ok g1 =>
      simp only [foldE, hstep] at h
      obtain ⟨hp1, hex, hprev, hnext⟩ := addOneRelease_ok g0 r g1 hstep
      obtain ⟨hp2, hrest⟩ := ih g1 g2 h
      refine ⟨cincinnati.preserves_trans hp1 hp2, ?_⟩
      intro r2 hr2
      rcases List.mem_cons.mp hr2 with rfl | hr3
      · obtain ⟨k, hk⟩ := hex
        exact ⟨⟨k, hp2.1 _ k hk⟩,
          fun v hv => cincinnati.hasVersionEdge_mono hp2 (hprev v hv),
          fun v hv => cincinnati.hasVersionEdge_mono hp2 (hnext v hv)⟩
      · exact hrest r2 hr3

end graph

/-- C8: in a graph successfully built by create_graph, every accepted
release has a node for its version, and for every version v in its
previous list the graph carries an edge from the node holding v to the
release's node (the node for v being the reused existing one or a
freshly inserted Abstract node), and symmetrically for every version v
in its next list an edge from the release's node to the node holding
v. -/
theorem c8_create_graph_edges :
    ∀ (releases : List registry.Release) (g : cincinnati.Graph),
      graph.create_graph releases = .ok g →
      ∀ r ∈ releases,
        (∃ k, g.find_by_version r.metadata.version = some k) ∧
        (∀ v ∈ r.metadata.previous,
          cincinnati.hasVersionEdge g v r.metadata.version) ∧
        (∀ v ∈ r.metadata.next,
          cincinnati.hasVersionEdge g r.metadata.version v) := by
  intro releases g h
  cases releases with
  | nil =>
    intro r hr
    cases hr
  | cons r0 rest =>
    simp only [graph.create_graph, List.isEmpty_cons] at h
    exact (graph.foldE_addOneRelease (r0 :: rest) cincinnati.Graph.default g h).2

/-- A release whose previous and next lists are nonempty, for the C8
witness. -/
def relB : registry.Release :=
  ⟨"quay.io/repo:0.0.1", ⟨.v0, "0.0.1", ["0.0.0"], ["0.0.2"], []⟩⟩

/-- The graph create_graph builds from [relB]: the concrete node, the
two Abstract placeholders, and the two edges. -/
def gB : cincinnati.Graph :=
  ⟨[.concrete "0.0.1" "quay.io/repo:0.0.1" [], .abstract "0.0.0",
    .abstract "0.0.2"],
   [(1, 0), (0, 2)]⟩

/-- Witness for C8 at a concrete release with one previous and one next
version. -/
theorem c8_create_graph_edges_witness :
    graph.create_graph [relB] = .ok gB ∧
    ∀ r ∈ [relB],
      (∃ k, gB.find_by_version r.metadata.version = some k) ∧
      (∀ v ∈ r.metadata.previous,
        cincinnati.hasVersionEdge gB v r.metadata.version) ∧
      (∀ v ∈ r.metadata.next,
        cincinnati.hasVersionEdge gB r.metadata.version v) :=
  ⟨by decide, c8_create_graph_edges [relB] gB (by decide)⟩
